import Mathlib

/-!
Verification of the chezmoi-split merge core.

A shallow embedding, in Lean 4, of the merge core of the `chezmoi-split`
repository: the dynamic configuration-tree value type, the JSON/TOML handler
path operations (`getPathWithWildcard` / `setPathWithWildcard`), the INI
handler path operations, the plaintext block handler (`Parse`, `MergeBlocks`),
the merge engine (`Merge`, `deepCopy`, `isNilValue`), and the path-selector
constructor (`ParseArrayPath`).

Two embeddings of the tree data are used:

* a pure value model (`Val`), in which Go's in-place mutation of
  `*orderedmap.OrderedMap` nodes is rendered as state passing (an operation
  returns the updated tree).  This reading is faithful for alias-free trees,
  which is what every `Parse` produces.

* an explicit heap model (`HVal` / `Heap`), in which ordered maps live at
  numbered heap addresses and `HVal.ref` is a Go pointer.  This reading is
  faithful to Go's pointer semantics including aliasing, and is used to
  examine the merge engine's behavior when a map value read out of the
  current tree is stored (by reference) into the result tree.

Go's `any` values are modeled as follows: `*orderedmap.OrderedMap` becomes
an ordered association list (`Val.omap` resp. `HVal.ref` into the heap),
`[]any` becomes `Val.arr`/`HVal.arr`, `string`/`bool` map to their Lean
counterparts, numbers are modeled as integers (`Val.num`), the untyped `nil`
interface (JSON `null`) is `Val.null`, and a typed-nil pointer wrapped in a
non-nil interface value is `Val.typedNil`.
-/

set_option autoImplicit false

namespace ChezmoiSplit

/-- A dynamic Go value (`any`) as used by the structured-format handlers:
ordered map, slice, string, number, bool, untyped nil, or a typed-nil
pointer wrapped in an interface. -/
inductive Val where
  | omap (entries : List (String × Val))
  | arr (elems : List Val)
  | str (s : String)
  | num (n : Int)
  | bool (b : Bool)
  | null
  | typedNil

/-- The entry list of an ordered map (`orderedmap.OrderedMap`):
keys in insertion order, each with its value. -/
abbrev OMap := List (String × Val)

/-- `OrderedMap.Get`: the value of the first entry with the given key. -/
def omGet (om : OMap) (k : String) : Option Val :=
  match om with
  | [] => none
  | (k', v) :: t => if k' = k then some v else omGet t k

/-- `OrderedMap.Set`: replace the value of an existing key in place
(keeping its position), or append a new entry at the end. -/
def omSet (om : OMap) (k : String) (v : Val) : OMap :=
  match om with
  | [] => [(k, v)]
  | (k', v') :: t => if k' = k then (k', v) :: t else (k', v') :: omSet t k v

/-- `OrderedMap.Keys`: the keys in insertion order. -/
def omKeys (om : OMap) : List String :=
  om.map Prod.fst

/-- `format.ToOrderedMapPtr`: view a dynamic value as an ordered map,
or `none` if it is not one. -/
def toOMap (v : Val) : Option OMap :=
  match v with
  | .omap om => some om
  | _ => none

theorem toOMap_omap (om : OMap) : toOMap (.omap om) = some om := rfl

/-- `merge.isNilValue`: `nil`, including a typed-nil pointer
(`*orderedmap.OrderedMap`, map, slice) wrapped in an interface value. -/
def isNilValue (v : Val) : Bool :=
  match v with
  | .null => true
  | .typedNil => true
  | _ => false

mutual

/-- `merge.deepCopy`: structural deep copy; ordered maps and slices are
rebuilt entry by entry, primitives are returned unchanged. -/
def deepCopy (v : Val) : Val :=
  match v with
  | .omap om => .omap (deepCopyEntries om)
  | .arr l => .arr (deepCopyElems l)
  | v => v

/-- Entry-wise copy of an ordered map's entries (the `for _, k := range
val.Keys()` loop of `merge.deepCopy`). -/
def deepCopyEntries (om : OMap) : OMap :=
  match om with
  | [] => []
  | (k, v) :: t => (k, deepCopy v) :: deepCopyEntries t

/-- Element-wise copy of a slice (the `[]any` case of `merge.deepCopy`). -/
def deepCopyElems (l : List Val) : List Val :=
  match l with
  | [] => []
  | v :: t => deepCopy v :: deepCopyElems t

end

/-- `merge.Merge`, in the pure (alias-free) reading: deep-copy the managed
tree; if the current tree is absent (nil, including typed nil) return the
copy; otherwise, for each selector in order, read from `current` and, when
found, write into the result, ignoring any write error.  The handler's
`GetPath`/`SetPath` are passed in as functions. -/
def Merge (getP : Val → List String → Option Val)
    (setP : Val → List String → Val → Val × Option String)
    (managed current : Val) (paths : List (List String)) : Val :=
  let result := deepCopy managed
  if isNilValue current then result
  else
    paths.foldl (fun res p =>
      match getP current p with
      | some val => (setP res p val).1
      | none => res) result

/-! ## JSON / TOML handler path operations (pure reading)

The JSON handler (`internal/format/json/handler.go`) and the TOML handler
(`internal/format/toml/handler.go`) contain byte-for-byte identical
`getPathWithWildcard` / `setPathWithWildcard` / `GetPath` / `SetPath`
functions; they are embedded once here.  Go's index-based recursion
(`segments`, `idx`) is rendered as recursion on the remaining-segment list,
and in-place mutation of map nodes as returning the updated tree. -/

/-- `getPathWithWildcard` (JSON and TOML handlers): navigate the tree along
the segments; a literal segment looks up its exact key, `*` tries every key
in order and returns the first recursive success; running out of segments
returns the node reached. -/
def getPathWithWildcard (segments : List String) (current : Val) : Option Val :=
  match segments with
  | [] => some current
  | segment :: rest =>
    match toOMap current with
    | none => none
    | some om =>
      if segment = "*" then
        (omKeys om).findSome? fun key => (omGet om key).bind (getPathWithWildcard rest)
      else
        (omGet om segment).bind (getPathWithWildcard rest)

/-- The `for _, key := range om.Keys()` loop of the wildcard branch of
`setPathWithWildcard`: apply the write to every key at this level.  For a
final wildcard, each key's value is replaced by `value`; otherwise the
recursion (`setRest`, the continuation at the remaining segments) runs on
each key's value independently, and its error, if any, is dropped
(`continue`). -/
def setWildcardAll (setRest : Val → Val × Option String) (isLast : Bool)
    (value : Val) (om : OMap) (ks : List String) : OMap :=
  match ks with
  | [] => om
  | key :: kt =>
    let om' :=
      if isLast then omSet om key value
      else
        match omGet om key with
        | none => om
        | some val => omSet om key (setRest val).1
    setWildcardAll setRest isLast value om' kt

/-- `setPathWithWildcard` (JSON and TOML handlers): write `value` at the
path.  Literal segments navigate (creating intermediate empty maps for
absent keys) and fail on an existing non-map node; a `*` segment applies
the write to every key at that level, swallowing per-branch errors. -/
def setPathWithWildcard (segments : List String) (current : Val) (value : Val) :
    Val × Option String :=
  match segments with
  | [] => (current, none)
  | segment :: rest =>
    match toOMap current with
    | none => (current, some "cannot navigate into non-map value")
    | some om =>
      if segment = "*" then
        (.omap (setWildcardAll (fun c => setPathWithWildcard rest c value)
          rest.isEmpty value om (omKeys om)), none)
      else if rest.isEmpty then
        (.omap (omSet om segment value), none)
      else
        match omGet om segment with
        | some next =>
          match toOMap next with
          | some _ =>
            let r := setPathWithWildcard rest next value
            (.omap (omSet om segment r.1), r.2)
          | none => (.omap om, some "path segment is not a map")
        | none =>
          let r := setPathWithWildcard rest (.omap []) value
          (.omap (omSet om segment r.1), r.2)

/-- `Handler.GetPath` (JSON and TOML handlers). -/
def GetPath (tree : Val) (segments : List String) : Option Val :=
  getPathWithWildcard segments tree

/-- `Handler.SetPath` (JSON and TOML handlers): an empty path is an error;
otherwise delegate to `setPathWithWildcard`. -/
def SetPath (tree : Val) (segments : List String) (value : Val) :
    Val × Option String :=
  if segments.length = 0 then (tree, some "empty path")
  else setPathWithWildcard segments tree value

/-! ## INI handler path operations (`internal/format/ini/handler.go`)

An INI tree is an ordered map from section names to section maps of
string-valued keys; paths have at most two segments (`["section"]` or
`["section", "key"]`). -/

namespace Ini

/-- `ini.toString`: the string rendering of a value written into an INI
tree (`fmt.Sprintf("%v", v)`): `nil` becomes the empty string, a string is
itself, bools and numbers print their usual forms.  The `%v` rendering of
composite Go values (maps, slices) is not relied on by any theorem below
and is modeled as a fixed placeholder. -/
def toString (v : Val) : String :=
  match v with
  | .null => ""
  | .str s => s
  | .bool b => if b then "true" else "false"
  | .num n => ToString.toString n
  | .typedNil => ""
  | .omap _ => "<map>"
  | .arr _ => "<slice>"

/-- The wildcard-key inner loop of `ini.SetPath` (`for _, keyName := range
sectionMap.Keys()`): set every key of the section to the same string. -/
def setAllKeys (sm : OMap) (ks : List String) (strVal : String) : OMap :=
  match ks with
  | [] => sm
  | keyName :: kt => setAllKeys (omSet sm keyName (.str strVal)) kt strVal

/-- The wildcard-section loop of `ini.SetPath` (`for _, sectionName :=
range om.Keys()`): skip non-map sections; with one segment replace the
whole section by the raw value, with two segments write the coerced string
at the key (or, for key `*`, at every key). -/
def setWildcardSections (om : OMap) (ks : List String) (seg2 : Option String)
    (value : Val) : OMap :=
  match ks with
  | [] => om
  | sectionName :: kt =>
    let sectionVal := (omGet om sectionName).getD .null
    let om' :=
      match toOMap sectionVal with
      | none => om
      | some sectionMap =>
        match seg2 with
        | none => omSet om sectionName value
        | some keySegment =>
          if keySegment = "*" then
            omSet om sectionName
              (.omap (setAllKeys sectionMap (omKeys sectionMap) (toString value)))
          else
            omSet om sectionName
              (.omap (omSet sectionMap keySegment (.str (toString value))))
    setWildcardSections om' kt seg2 value

/-- `ini.Handler.SetPath`: selectors must have exactly 1 or 2 segments;
section `*` loops over all sections; a missing section is created; a
one-segment write replaces the whole section with the raw value; a
two-segment write stores the `toString` coercion of the value. -/
def SetPath (tree : Val) (segments : List String) (value : Val) :
    Val × Option String :=
  match segments with
  | [] => (tree, some "INI paths must have 1 or 2 segments")
  | _ :: _ :: _ :: _ => (tree, some "INI paths must have 1 or 2 segments")
  | _ =>
    match toOMap tree with
    | none => (tree, some "tree is not an ordered map")
    | some om =>
      match segments with
      | [sectionSegment] =>
        if sectionSegment = "*" then
          (.omap (setWildcardSections om (omKeys om) none value), none)
        else
          match omGet om sectionSegment with
          | some sectionVal =>
            match toOMap sectionVal with
            | none => (tree, some "section is not a map")
            | some _ => (.omap (omSet om sectionSegment value), none)
          | none => (.omap (omSet om sectionSegment value), none)
      | [sectionSegment, keySegment] =>
        if sectionSegment = "*" then
          (.omap (setWildcardSections om (omKeys om) (some keySegment) value), none)
        else
          match omGet om sectionSegment with
          | some sectionVal =>
            match toOMap sectionVal with
            | none => (tree, some "section is not a map")
            | some sectionMap =>
              if keySegment = "*" then
                (.omap (omSet om sectionSegment
                  (.omap (setAllKeys sectionMap (omKeys sectionMap) (toString value)))), none)
              else
                (.omap (omSet om sectionSegment
                  (.omap (omSet sectionMap keySegment (.str (toString value))))), none)
          | none =>
            if keySegment = "*" then
              (.omap (omSet om sectionSegment (.omap (setAllKeys [] [] (toString value)))), none)
            else
              (.omap (omSet om sectionSegment
                (.omap (omSet [] keySegment (.str (toString value))))), none)
      | _ => (tree, some "INI paths must have 1 or 2 segments")

/-- The wildcard-section loop of `ini.GetPath`: return the first section
(one segment), or the first hit for the key among all sections; key `*`
returns the first key of the first map section that has one. -/
def getWildcardSections (om : OMap) (ks : List String) (seg2 : Option String) :
    Option Val :=
  match ks with
  | [] => none
  | sectionName :: kt =>
    let sectionVal := (omGet om sectionName).getD .null
    match seg2 with
    | none => some sectionVal
    | some keySegment =>
      match toOMap sectionVal with
      | none => getWildcardSections om kt seg2
      | some sectionMap =>
        if keySegment = "*" then
          match sectionMap with
          | (_, v) :: _ => some v
          | [] => getWildcardSections om kt seg2
        else
          match omGet sectionMap keySegment with
          | some v => some v
          | none => getWildcardSections om kt seg2

/-- `ini.Handler.GetPath`: not-found for selectors with 0 or more than 2
segments; section `*` scans sections in order; one segment returns the
whole section; key `*` returns the first key's value. -/
def GetPath (tree : Val) (segments : List String) : Option Val :=
  match segments with
  | [] => none
  | _ :: _ :: _ :: _ => none
  | _ =>
    match toOMap tree with
    | none => none
    | some om =>
      match segments with
      | [sectionSegment] =>
        if sectionSegment = "*" then
          getWildcardSections om (omKeys om) none
        else
          omGet om sectionSegment
      | [sectionSegment, keySegment] =>
        if sectionSegment = "*" then
          getWildcardSections om (omKeys om) (some keySegment)
        else
          match omGet om sectionSegment with
          | none => none
          | some sectionVal =>
            match toOMap sectionVal with
            | none => none
            | some sectionMap =>
              if keySegment = "*" then
                match sectionMap with
                | (_, v) :: _ => some v
                | [] => none
              else
                omGet sectionMap keySegment
      | _ => none

end Ini

/-! ## Plaintext block handler (`internal/format/plaintext/handler.go`) -/

namespace Ptext

/-- `plaintext.BlockType`: `managedB` is `BlockManaged` (content from the
template), `ignoredB` is `BlockIgnored` (content preserved from current),
`endB` is `BlockEnd` (internal, used when generating end markers). -/
inductive BlockType where
  | managedB
  | ignoredB
  | endB
deriving DecidableEq, Repr

/-- `plaintext.Block`: a section of the config file. -/
structure Block where
  type : BlockType
  lines : List String
  markerLine : String
deriving DecidableEq, Repr

/-- `plaintext.ParsedConfig`: the structured representation of a plaintext
config.  `commentPfx` is the `CommentPrefix` field (used when writing
markers). -/
structure ParsedConfig where
  blocks : List Block
  commentPfx : String
  trailingLines : List String
deriving DecidableEq, Repr

/-- `strings.Contains(s, sub)` on character lists: some suffix of the
haystack starts with the needle. -/
def listContains (hay sub : List Char) : Bool :=
  sub.isPrefixOf hay ||
    match hay with
    | [] => false
    | _ :: t => listContains t sub

/-- `strings.Contains` on strings. -/
def strContains (s sub : String) : Bool :=
  listContains s.data sub.data

/-- `plaintext.detectMarker`: substring-based marker detection, checking
`chezmoi:managed`, then `chezmoi:ignored`, then `chezmoi:end`; returns
`""` for a plain content line. -/
def detectMarker (line : String) : String :=
  if strContains line "chezmoi:managed" then "managed"
  else if strContains line "chezmoi:ignored" then "ignored"
  else if strContains line "chezmoi:end" then "end"
  else ""

/-- The scan state of `plaintext.Parse`: blocks closed so far, the open
block (`currentBlock`), the `afterEnd` flag, and the trailing lines. -/
structure PState where
  blocks : List Block
  current : Option Block
  afterEnd : Bool
  trailing : List String

/-- One line of the `plaintext.Parse` scan: marker lines close the current
block and open a new one (or, for `end`, set the after-end flag); content
lines go to the trailing list, the open block, or an implicit ignored
block. -/
def parseStep (st : PState) (line : String) : PState :=
  match detectMarker line with
  | "managed" =>
    { blocks := st.blocks ++ st.current.toList,
      current := some { type := .managedB, lines := [], markerLine := line },
      afterEnd := false, trailing := st.trailing }
  | "ignored" =>
    { blocks := st.blocks ++ st.current.toList,
      current := some { type := .ignoredB, lines := [], markerLine := line },
      afterEnd := false, trailing := st.trailing }
  | "end" =>
    { blocks := st.blocks ++ st.current.toList,
      current := none, afterEnd := true, trailing := st.trailing }
  | _ =>
    if st.afterEnd then { st with trailing := st.trailing ++ [line] }
    else
      match st.current with
      | some b => { st with current := some { b with lines := b.lines ++ [line] } }
      | none =>
        { st with current := some { type := .ignoredB, lines := [line], markerLine := "" } }

/-- `plaintext.Parse` on an already-split line list: scan all lines, then
close any open block.  Total by construction. -/
def parseLines (pfx : String) (lines : List String) : ParsedConfig :=
  let st := lines.foldl parseStep
    { blocks := [], current := none, afterEnd := false, trailing := [] }
  { blocks := st.blocks ++ st.current.toList,
    commentPfx := pfx,
    trailingLines := st.trailing }

/-- `plaintext.Handler.Parse`: split the input on newlines and scan; the
function's Go error result is the literal `nil` of `return config, nil`. -/
def Parse (pfx : String) (data : String) : ParsedConfig × Option String :=
  (parseLines pfx (data.splitOn "\n"), none)

/-- `plaintext.allBlocksImplicit`: every block lacks a marker line. -/
def allBlocksImplicit (config : ParsedConfig) : Bool :=
  config.blocks.all fun block => block.markerLine = ""

/-- `plaintext.extractIgnoredBlocks`: `nil`/empty current yields nothing; a
fully implicit current document becomes one synthetic ignored block holding
all of its content; otherwise exactly the explicitly ignored blocks, in
order. -/
def extractIgnoredBlocks (current : Option ParsedConfig) : List Block :=
  match current with
  | none => []
  | some c =>
    if c.blocks.isEmpty then []
    else if allBlocksImplicit c then
      [{ type := .ignoredB, lines := c.blocks.flatMap Block.lines, markerLine := "" }]
    else
      c.blocks.filter fun block => block.type = .ignoredB

/-- The walk of `plaintext.MergeBlocks` over the managed block list,
carrying the running `ignoredIndex` into current's ignored blocks. -/
def mergeLoop (blocks : List Block) (currentIgnored : List Block) (ignoredIndex : Nat) :
    List Block :=
  match blocks with
  | [] => []
  | block :: rest =>
    if block.type = .managedB then
      { type := block.type, markerLine := block.markerLine, lines := block.lines } ::
        mergeLoop rest currentIgnored ignoredIndex
    else
      match currentIgnored.get? ignoredIndex with
      | some cb =>
        { type := block.type, markerLine := block.markerLine, lines := cb.lines } ::
          mergeLoop rest currentIgnored (ignoredIndex + 1)
      | none =>
        { type := block.type, markerLine := block.markerLine, lines := block.lines } ::
          mergeLoop rest currentIgnored ignoredIndex

/-- `plaintext.Handler.MergeBlocks`: a `nil` managed config returns current
as-is; otherwise walk managed's blocks, managed blocks keeping template
content and other blocks taking current's ignored blocks by index. -/
def MergeBlocks (managed current : Option ParsedConfig) : Option ParsedConfig :=
  match managed with
  | none => current
  | some m =>
    some { blocks := mergeLoop m.blocks (extractIgnoredBlocks current) 0,
           commentPfx := m.commentPfx,
           trailingLines := [] }

/-- Every line recorded in a parsed config, in recorded order: for each
block its marker line (when one was recorded) followed by its content
lines, then the trailing lines. -/
def accountedLines (config : ParsedConfig) : List String :=
  (config.blocks.flatMap fun b =>
    (if b.markerLine = "" then [] else [b.markerLine]) ++ b.lines) ++
    config.trailingLines

end Ptext

/-! ## Heap model of the merge engine

Go's `*orderedmap.OrderedMap` values are pointers: storing a map value read
out of one tree into another tree shares the node.  To examine the merge
engine faithfully to this, `HVal`/`Heap` model ordered-map nodes as numbered
heap cells; `HVal.ref a` is a pointer to cell `a`.  Slices are modeled
immutably (`HVal.arr`) since no operation of the merge core writes through
a slice element.  The operations below are the same source functions as the
pure model (`merge.Merge`, `merge.deepCopy`, the JSON/TOML
`getPathWithWildcard`/`setPathWithWildcard`), with the heap threaded
explicitly; recursion is fueled, and every theorem below applies them with
ample fuel to concrete inputs only. -/

namespace HeapM

/-- A dynamic Go value in the heap model; `ref a` is a
`*orderedmap.OrderedMap` pointing at heap cell `a`. -/
inductive HVal where
  | ref (a : Nat)
  | arr (elems : List HVal)
  | str (s : String)
  | num (n : Int)
  | bool (b : Bool)
  | null

/-- The heap: cell `a` holds the entry list of the ordered map allocated
at address `a`. -/
abbrev Heap := List (List (String × HVal))

/-- The entries of the map at address `a` (empty for a dangling address;
no operation below ever follows a dangling address). -/
def entriesAt (h : Heap) (a : Nat) : List (String × HVal) :=
  (h.get? a).getD []

/-- `OrderedMap.Get` at address `a`. -/
def hGet (h : Heap) (a : Nat) (k : String) : Option HVal :=
  match entriesAt h a with
  | om => go om
where
  go : List (String × HVal) → Option HVal
  | [] => none
  | (k', v) :: t => if k' = k then some v else go t

/-- `OrderedMap.Set` on the entry list. -/
def hSetEntries (om : List (String × HVal)) (k : String) (v : HVal) :
    List (String × HVal) :=
  match om with
  | [] => [(k, v)]
  | (k', v') :: t => if k' = k then (k', v) :: t else (k', v') :: hSetEntries t k v

/-- `OrderedMap.Set` at address `a`, updating the heap. -/
def hSet (h : Heap) (a : Nat) (k : String) (v : HVal) : Heap :=
  h.set a (hSetEntries (entriesAt h a) k v)

/-- `OrderedMap.Keys` at address `a`. -/
def hKeys (h : Heap) (a : Nat) : List String :=
  (entriesAt h a).map Prod.fst

/-- `orderedmap.New()`: allocate a fresh empty map, returning its address. -/
def allocEmpty (h : Heap) : Heap × Nat :=
  (h ++ [[]], h.length)

/-- `format.ToOrderedMapPtr` in the heap model: a `ref` is an ordered map,
everything else is not. -/
def toMapAddr (v : HVal) : Option Nat :=
  match v with
  | .ref a => some a
  | _ => none

/-- `merge.isNilValue` in the heap model. -/
def isNilValue (v : HVal) : Bool :=
  match v with
  | .null => true
  | _ => false

/-- `merge.deepCopy` in the heap model: copying a map allocates a fresh
cell and copies every entry into it; slices are copied element-wise;
primitives are shared.  Fueled on nesting depth. -/
def deepCopy (fuel : Nat) (h : Heap) (v : HVal) : HVal × Heap :=
  match fuel with
  | 0 => (v, h)
  | fuel + 1 =>
    match v with
    | .ref a =>
      let entries := entriesAt h a
      let (h1, addr) := allocEmpty h
      let h2 := entries.foldl (fun hh kv =>
        let (cv, hh1) := deepCopy fuel hh kv.2
        hSet hh1 addr kv.1 cv) h1
      (.ref addr, h2)
    | .arr l =>
      let r := l.foldl (fun (acc : List HVal × Heap) x =>
        let (cv, h1) := deepCopy fuel acc.2 x
        (acc.1 ++ [cv], h1)) ([], h)
      (.arr r.1, r.2)
    | v => (v, h)

/-- `getPathWithWildcard` (JSON/TOML handlers) in the heap model. -/
def getPathWithWildcard (fuel : Nat) (h : Heap) (current : HVal)
    (segments : List String) : Option HVal :=
  match fuel with
  | 0 => none
  | fuel + 1 =>
    match segments with
    | [] => some current
    | segment :: rest =>
      match toMapAddr current with
      | none => none
      | some a =>
        if segment = "*" then
          (hKeys h a).findSome? fun key =>
            (hGet h a key).bind fun val => getPathWithWildcard fuel h val rest
        else
          (hGet h a segment).bind fun val => getPathWithWildcard fuel h val rest

/-- `setPathWithWildcard` (JSON/TOML handlers) in the heap model: writes
mutate the heap in place; wildcard branches iterate the key snapshot,
dropping per-branch errors. -/
def setPathWithWildcard (fuel : Nat) (h : Heap) (current : HVal)
    (segments : List String) (value : HVal) : Heap × Option String :=
  match fuel with
  | 0 => (h, some "out of fuel")
  | fuel + 1 =>
    match segments with
    | [] => (h, none)
    | segment :: rest =>
      match toMapAddr current with
      | none => (h, some "cannot navigate into non-map value")
      | some a =>
        if segment = "*" then
          let ks := hKeys h a
          let h' := ks.foldl (fun hh key =>
            if rest.isEmpty then hSet hh a key value
            else
              match hGet hh a key with
              | none => hh
              | some val => (setPathWithWildcard fuel hh val rest value).1) h
          (h', none)
        else if rest.isEmpty then (hSet h a segment value, none)
        else
          match hGet h a segment with
          | some next =>
            match toMapAddr next with
            | some _ => setPathWithWildcard fuel h next rest value
            | none => (h, some "path segment is not a map")
          | none =>
            let (h1, addr) := allocEmpty h
            let h2 := hSet h1 a segment (.ref addr)
            setPathWithWildcard fuel h2 (.ref addr) rest value

/-- `merge.Merge` in the heap model, instantiated with the JSON/TOML
handler operations: deep-copy managed, return the copy if current is
absent, else overlay each selector's value read from `current` into the
result, ignoring write errors. -/
def Merge (fuel : Nat) (h : Heap) (managed current : HVal)
    (paths : List (List String)) : HVal × Heap :=
  let rc := deepCopy fuel h managed
  let result := rc.1
  if isNilValue current then (result, rc.2)
  else
    let h2 := paths.foldl (fun hh p =>
      match getPathWithWildcard fuel hh current p with
      | some val => (setPathWithWildcard fuel hh result p val).1
      | none => hh) rc.2
    (result, h2)

/-- Read a heap value back as a pure tree (`Val`), following pointers;
`none` only on dangling references or insufficient fuel. -/
def readBack (fuel : Nat) (h : Heap) (v : HVal) : Option Val :=
  match fuel with
  | 0 => none
  | fuel + 1 =>
    match v with
    | .ref a =>
      match h.get? a with
      | none => none
      | some entries =>
        (entries.mapM fun kv => (readBack fuel h kv.2).map fun t => (kv.1, t)).map Val.omap
    | .arr l => (l.mapM (readBack fuel h)).map Val.arr
    | .str s => some (.str s)
    | .num n => some (.num n)
    | .bool b => some (.bool b)
    | .null => some .null

end HeapM

/-! ## Spec-side reference algorithm -/

/-- The reference merge algorithm as the spec states it (§4.4, steps 1 and
3, for a present current tree): start from a deep copy of the managed
tree; for each selector in input order, call `getPath(current, selector)`
on the (pristine) current tree; if found, call `setPath` on the result
with the found value, ignoring any `setPath` failure; if not found, skip
the selector.  Stated over pure trees with the JSON/TOML handler
operations. -/
def mergeReference (managed current : Val) (selectors : List (List String)) : Val :=
  selectors.foldl (fun result p =>
    match GetPath current p with
    | some value => (SetPath result p value).1
    | none => result) (deepCopy managed)

/-! ## Structural lemmas for `deepCopy` -/

mutual

/-- `merge.deepCopy` is the identity on the pure tree structure: the copy
is deep-equal to its input. -/
theorem deepCopy_id : (v : Val) → deepCopy v = v
  | .omap om => by rw [deepCopy, deepCopyEntries_id]
  | .arr l => by rw [deepCopy, deepCopyElems_id]
  | .str _ => rfl
  | .num _ => rfl
  | .bool _ => rfl
  | .null => rfl
  | .typedNil => rfl

/-- Entry lists are copied to deep-equal entry lists. -/
theorem deepCopyEntries_id : (om : OMap) → deepCopyEntries om = om
  | [] => rfl
  | (k, v) :: t => by rw [deepCopyEntries, deepCopy_id v, deepCopyEntries_id t]

/-- Slices are copied to deep-equal slices. -/
theorem deepCopyElems_id : (l : List Val) → deepCopyElems l = l
  | [] => rfl
  | v :: t => by rw [deepCopyElems, deepCopy_id v, deepCopyElems_id t]

end

/-! ## Claims C1 and C2: the merge engine and aliasing

The failing input shared by both claims, in the heap model:
current is `{"a": {"x": 1, "y": 2}}` (inner map at cell 0, root at cell 1)
and managed is `{"a": "m"}` (root at cell 2). -/

/-- Heap of the failing input: cell 0 is current's inner map, cell 1 is
current's root, cell 2 is managed's root. -/
def aliasHeap : HeapM.Heap :=
  [[("x", .num 1), ("y", .num 2)], [("a", .ref 0)], [("a", .str "m")]]

/-- The managed root of the failing input. -/
def aliasManaged : HeapM.HVal := .ref 2

/-- The current root of the failing input. -/
def aliasCurrent : HeapM.HVal := .ref 1

/-- C1: the claim fails on the code.  With managed `{"a":"m"}`, current
`{"a":{"x":1,"y":2}}` and selectors `[["a"], ["a","*"]]`, the selector
`["a"]` stores current's inner map into the result by reference, and the
wildcard write of `["a","*"]` then mutates that shared node: after the
call the current tree reads back as `{"a":{"x":1,"y":1}}`, not deep-equal
to its pre-call snapshot `{"a":{"x":1,"y":2}}`. -/
theorem merge_mutates_current_tree :
    HeapM.readBack 10 aliasHeap aliasCurrent
      = some (.omap [("a", .omap [("x", .num 1), ("y", .num 2)])]) ∧
    HeapM.readBack 10
        (HeapM.Merge 10 aliasHeap aliasManaged aliasCurrent [["a"], ["a", "*"]]).2
        aliasCurrent
      = some (.omap [("a", .omap [("x", .num 1), ("y", .num 1)])]) ∧
    Val.omap [("a", .omap [("x", .num 1), ("y", .num 2)])]
      ≠ Val.omap [("a", .omap [("x", .num 1), ("y", .num 1)])] :=
  ⟨rfl, rfl, by simp⟩

/-- C2: the claim fails on the code.  On the same input with selectors
`[["a"], ["a","*"], ["a","y"]]`, the third selector's `getPath` reads the
current tree after the second selector's wildcard write has mutated it
through the aliased node, so the merge returns `{"a":{"x":1,"y":1}}` while
the reference algorithm of the spec (whose `getPath` reads the pristine
current tree) returns `{"a":{"x":1,"y":2}}`. -/
theorem merge_diverges_from_reference :
    HeapM.readBack 10 aliasHeap aliasManaged = some (.omap [("a", .str "m")]) ∧
    HeapM.readBack 10 aliasHeap aliasCurrent
      = some (.omap [("a", .omap [("x", .num 1), ("y", .num 2)])]) ∧
    HeapM.readBack 10
        (HeapM.Merge 10 aliasHeap aliasManaged aliasCurrent
          [["a"], ["a", "*"], ["a", "y"]]).2
        (HeapM.Merge 10 aliasHeap aliasManaged aliasCurrent
          [["a"], ["a", "*"], ["a", "y"]]).1
      = some (.omap [("a", .omap [("x", .num 1), ("y", .num 1)])]) ∧
    mergeReference (.omap [("a", .str "m")])
        (.omap [("a", .omap [("x", .num 1), ("y", .num 2)])])
        [["a"], ["a", "*"], ["a", "y"]]
      = .omap [("a", .omap [("x", .num 1), ("y", .num 2)])] ∧
    Val.omap [("a", .omap [("x", .num 1), ("y", .num 1)])]
      ≠ Val.omap [("a", .omap [("x", .num 1), ("y", .num 2)])] :=
  ⟨rfl, rfl, rfl, rfl, by simp⟩

/-! ## Claim C3: absent current returns the managed tree -/

/-- C3: for every handler (any `getPath`/`setPath` pair), every managed
tree and every selector list, if the current tree is absent — nil,
including a typed-nil pointer wrapped in an interface value — `Merge`
returns a tree deep-equal to the managed tree. -/
theorem merge_absent_current_eq_managed
    (getP : Val → List String → Option Val)
    (setP : Val → List String → Val → Val × Option String)
    (managed current : Val) (paths : List (List String))
    (h : isNilValue current = true) :
    Merge getP setP managed current paths = managed := by
  unfold Merge
  rw [h]
  simp [deepCopy_id]

/-- Witness for C3 at a concrete input: a typed-nil current tree with a
nonempty selector list returns the managed tree unchanged. -/
theorem merge_absent_current_eq_managed_witness :
    isNilValue Val.typedNil = true ∧
    Merge GetPath SetPath (.omap [("key", .str "managed")]) Val.typedNil
      [["key"], ["app", "*"]] = .omap [("key", .str "managed")] :=
  ⟨rfl, merge_absent_current_eq_managed GetPath SetPath _ _ _ rfl⟩

/-! ## Claim C4: wildcard writes hit every key -/

theorem omKeys_cons (k : String) (v : Val) (t : OMap) :
    omKeys ((k, v) :: t) = k :: omKeys t := rfl

theorem omGet_cons_self (k : String) (v : Val) (t : OMap) :
    omGet ((k, v) :: t) k = some v := by
  simp [omGet]

theorem omGet_cons_ne (k' k : String) (v : Val) (t : OMap) (h : k' ≠ k) :
    omGet ((k', v) :: t) k = omGet t k := by
  simp [omGet, h]

theorem omSet_cons_self (k : String) (v x : Val) (t : OMap) :
    omSet ((k, v) :: t) k x = (k, x) :: t := by
  simp [omSet]

theorem omSet_cons_ne (k' k : String) (v x : Val) (t : OMap) (h : k' ≠ k) :
    omSet ((k', v) :: t) k x = (k', v) :: omSet t k x := by
  simp [omSet, h]

/-- The wildcard write loop leaves an entry alone when its key is not
among the keys being visited. -/
theorem setWildcardAll_skip (f : Val → Val × Option String) (last : Bool)
    (v : Val) (k : String) (x : Val) :
    ∀ (ks : List String) (t : OMap), k ∉ ks →
      setWildcardAll f last v ((k, x) :: t) ks
        = (k, x) :: setWildcardAll f last v t ks
  | [], t, _ => rfl
  | key :: kt, t, h => by
    have hne : k ≠ key := fun hk => h (by rw [hk]; exact List.mem_cons_self _ _)
    have hnt : k ∉ kt := fun hk => h (List.mem_cons_of_mem _ hk)
    rw [setWildcardAll, setWildcardAll, omGet_cons_ne k key x t hne]
    cases last with
    | true =>
      change setWildcardAll f true v (omSet ((k, x) :: t) key v) kt
          = (k, x) :: setWildcardAll f true v (omSet t key v) kt
      rw [omSet_cons_ne k key x v t hne]
      exact setWildcardAll_skip f true v k x kt (omSet t key v) hnt
    | false =>
      cases hg : omGet t key with
      | none => exact setWildcardAll_skip f false v k x kt t hnt
      | some val =>
        change setWildcardAll f false v (omSet ((k, x) :: t) key ((f val).1)) kt
            = (k, x) :: setWildcardAll f false v (omSet t key ((f val).1)) kt
        rw [omSet_cons_ne k key x (f val).1 t hne]
        exact setWildcardAll_skip f false v k x kt (omSet t key (f val).1) hnt

/-- Characterization of the wildcard write loop over the map's own key
list (unique keys): every entry is visited, and its value becomes `v`
(final wildcard) or the result of the per-branch recursion, whose error is
dropped. -/
theorem setWildcardAll_keys (f : Val → Val × Option String) (last : Bool)
    (v : Val) :
    ∀ om : OMap, (omKeys om).Nodup →
      setWildcardAll f last v om (omKeys om)
        = om.map fun kv => (kv.1, if last then v else (f kv.2).1)
  | [], _ => rfl
  | (k, c) :: t, h => by
    rw [omKeys_cons] at h
    have hk : k ∉ omKeys t := (List.nodup_cons.mp h).1
    have ht : (omKeys t).Nodup := (List.nodup_cons.mp h).2
    rw [omKeys_cons, setWildcardAll, omGet_cons_self]
    cases last with
    | true =>
      change setWildcardAll f true v (omSet ((k, c) :: t) k v) (omKeys t) = _
      rw [omSet_cons_self k c v t,
        setWildcardAll_skip f true v k v (omKeys t) t hk,
        setWildcardAll_keys f true v t ht]
      simp
    | false =>
      change setWildcardAll f false v (omSet ((k, c) :: t) k ((f c).1)) (omKeys t) = _
      rw [omSet_cons_self k c (f c).1 t,
        setWildcardAll_skip f false v k (f c).1 (omKeys t) t hk,
        setWildcardAll_keys f false v t ht]
      simp

/-- C4: for the JSON and TOML handlers (which contain the identical
`setPathWithWildcard` function), a wildcard segment applies the write to
every key at that level, not just the first: a final wildcard replaces
every child of the map by `value`; a non-final wildcard recurses into
every child independently, keeping each branch's own result (so one
branch's failure does not stop the others from being written), and the
call returns without error in both cases. -/
theorem setPath_wildcard_every_key (om : OMap) (value : Val)
    (hnd : (omKeys om).Nodup) :
    setPathWithWildcard ["*"] (.omap om) value
      = (.omap (om.map fun kv => (kv.1, value)), none) ∧
    ∀ (s : String) (rest : List String),
      setPathWithWildcard ("*" :: s :: rest) (.omap om) value
        = (.omap (om.map fun kv =>
            (kv.1, (setPathWithWildcard (s :: rest) kv.2 value).1)), none) := by
  constructor
  · rw [setPathWithWildcard]
    simp only [toOMap, if_pos rfl, List.isEmpty_nil]
    rw [setWildcardAll_keys _ true value om hnd]
    simp
  · intro s rest
    rw [setPathWithWildcard]
    simp only [toOMap, if_pos rfl, List.isEmpty_cons]
    rw [setWildcardAll_keys _ false value om hnd]
    simp

/-- Witness for C4 at the spec's wildcard scenario: two servers, selector
`["*", "enabled"]` at the servers level; both server entries are written
and no error is returned. -/
theorem setPath_wildcard_every_key_witness :
    (omKeys [("server1", Val.omap [("enabled", Val.bool false)]),
             ("server2", Val.omap [("enabled", Val.bool false)])]).Nodup ∧
    setPathWithWildcard ["*", "enabled"]
        (.omap [("server1", .omap [("enabled", .bool false)]),
                ("server2", .omap [("enabled", .bool false)])])
        (.bool true)
      = (.omap [("server1", .omap [("enabled", .bool true)]),
                ("server2", .omap [("enabled", .bool true)])], none) :=
  ⟨by decide,
    (setPath_wildcard_every_key
      [("server1", .omap [("enabled", .bool false)]),
       ("server2", .omap [("enabled", .bool false)])]
      (.bool true) (by decide)).2 "enabled" []⟩

/-! ## Claims C7 and C8: INI path shape and string coercion -/

theorem omGet_mem : ∀ (om : OMap) (k : String) (v : Val),
    omGet om k = some v → (k, v) ∈ om
  | [], _, _, h => by simp [omGet] at h
  | (k', v') :: t, k, v, h => by
    rw [omGet] at h
    by_cases hk : k' = k
    · rw [if_pos hk] at h
      obtain rfl : v' = v := by injection h
      subst hk
      exact List.mem_cons_self _ _
    · rw [if_neg hk] at h
      exact List.mem_cons_of_mem _ (omGet_mem t k v h)

/-- C7: for the INI handler, `SetPath` errors and `GetPath` is not-found
on every selector with zero or at least three segments; and on a
well-formed INI tree (every section value is a map), one- and two-segment
literal selectors are accepted by `SetPath`, a two-segment write to an
absent section creating the section map. -/
theorem ini_path_shape :
    (∀ (tree : Val) (segments : List String) (v : Val),
      (segments.length = 0 ∨ 3 ≤ segments.length) →
      (Ini.SetPath tree segments v).2.isSome = true ∧
        Ini.GetPath tree segments = none) ∧
    (∀ (om : OMap) (v : Val) (s k : String),
      (∀ p ∈ om, (toOMap p.2).isSome = true) → s ≠ "*" → k ≠ "*" →
      (Ini.SetPath (.omap om) [s] v).2 = none ∧
      (Ini.SetPath (.omap om) [s, k] v).2 = none ∧
      (omGet om s = none →
        (Ini.SetPath (.omap om) [s, k] v).1
          = .omap (omSet om s (.omap (omSet [] k (.str (Ini.toString v))))))) := by
  constructor
  · intro tree segments v h
    rcases segments with _ | ⟨a, _ | ⟨b, _ | ⟨c, t⟩⟩⟩
    · exact ⟨rfl, rfl⟩
    · simp at h
    · simp at h
    · exact ⟨rfl, rfl⟩
  · intro om v s k hWF hs hk
    refine ⟨?_, ?_, ?_⟩
    · simp only [Ini.SetPath, toOMap_omap]
      rw [if_neg hs]
      cases hg : omGet om s with
      | none => rfl
      | some sv =>
        have hmem := omGet_mem om s sv hg
        have hWF2 : (toOMap sv).isSome = true := hWF _ hmem
        cases hsv : toOMap sv with
        | none => rw [hsv] at hWF2; simp at hWF2
        | some sm => simp [hsv]
    · simp only [Ini.SetPath, toOMap_omap]
      rw [if_neg hs]
      cases hg : omGet om s with
      | none => rw [if_neg hk]
      | some sv =>
        have hmem := omGet_mem om s sv hg
        have hWF2 : (toOMap sv).isSome = true := hWF _ hmem
        cases hsv : toOMap sv with
        | none => rw [hsv] at hWF2; simp at hWF2
        | some sm => simp [hsv, hk]
    · intro hg
      simp only [Ini.SetPath, toOMap_omap]
      rw [if_neg hs, hg, if_neg hk]

/-- Witness for C7 at concrete inputs: the empty selector and a
three-segment selector are rejected, one- and two-segment literal
selectors are accepted, and an absent section is created. -/
theorem ini_path_shape_witness :
    (Ini.SetPath (.omap [("sec", .omap [("key", .str "v")])]) [] (.str "x")).2.isSome
      = true ∧
    Ini.GetPath (.omap [("sec", .omap [("key", .str "v")])]) ["a", "b", "c"] = none ∧
    (Ini.SetPath (.omap [("sec", .omap [("key", .str "v")])]) ["sec"] (.str "x")).2
      = none ∧
    (Ini.SetPath (.omap [("sec", .omap [("key", .str "v")])]) ["new", "k"] (.str "x")).2
      = none ∧
    (Ini.SetPath (.omap [("sec", .omap [("key", .str "v")])]) ["new", "k"] (.str "x")).1
      = .omap [("sec", .omap [("key", .str "v")]),
               ("new", .omap [("k", .str "x")])] :=
  ⟨(ini_path_shape.1 (.omap [("sec", .omap [("key", .str "v")])]) [] (.str "x")
      (Or.inl rfl)).1,
   (ini_path_shape.1 (.omap [("sec", .omap [("key", .str "v")])]) ["a", "b", "c"]
      (.str "x") (Or.inr (by decide))).2,
   (ini_path_shape.2 [("sec", .omap [("key", .str "v")])] (.str "x") "sec" "k"
      (by decide) (by decide) (by decide)).1,
   (ini_path_shape.2 [("sec", .omap [("key", .str "v")])] (.str "x") "new" "k"
      (by decide) (by decide) (by decide)).2.1,
   (ini_path_shape.2 [("sec", .omap [("key", .str "v")])] (.str "x") "new" "k"
      (by decide) (by decide) (by decide)).2.2 rfl⟩

/-- C8: the claim fails on the code.  A one-segment (whole-section) write
is accepted but stores the raw value unconverted: writing boolean `true`
at `["s"]` stores `Val.bool true`, not its string rendering `"true"`. -/
theorem ini_one_segment_write_not_coerced :
    (Ini.SetPath (.omap [("s", .omap [])]) ["s"] (.bool true)).2 = none ∧
    (Ini.SetPath (.omap [("s", .omap [])]) ["s"] (.bool true)).1
      = .omap [("s", .bool true)] ∧
    Val.bool true ≠ .str (Ini.toString (.bool true)) :=
  ⟨rfl, rfl, by simp⟩

/-- The INI wildcard-key loop leaves an entry alone when its key is not
among the keys being visited. -/
theorem setAllKeys_skip (w : String) (k : String) (x : Val) :
    ∀ (ks : List String) (t : OMap), k ∉ ks →
      Ini.setAllKeys ((k, x) :: t) ks w = (k, x) :: Ini.setAllKeys t ks w
  | [], _, _ => rfl
  | key :: kt, t, h => by
    have hne : k ≠ key := fun hkk => h (by rw [hkk]; exact List.mem_cons_self _ _)
    have hnt : k ∉ kt := fun hkk => h (List.mem_cons_of_mem _ hkk)
    rw [Ini.setAllKeys, Ini.setAllKeys, omSet_cons_ne k key x (.str w) t hne]
    exact setAllKeys_skip w k x kt (omSet t key (.str w)) hnt

/-- The INI wildcard-key loop over the section's own key list (unique
keys) sets every value to the same string. -/
theorem setAllKeys_keys (w : String) :
    ∀ sm : OMap, (omKeys sm).Nodup →
      Ini.setAllKeys sm (omKeys sm) w = sm.map fun kv => (kv.1, .str w)
  | [], _ => rfl
  | (k, c) :: t, h => by
    rw [omKeys_cons] at h
    have hk : k ∉ omKeys t := (List.nodup_cons.mp h).1
    have ht : (omKeys t).Nodup := (List.nodup_cons.mp h).2
    rw [omKeys_cons, Ini.setAllKeys, omSet_cons_self k c (.str w) t,
      setAllKeys_skip w k (.str w) (omKeys t) t hk, setAllKeys_keys w t ht]
    simp

/-- The INI wildcard-section loop leaves an entry alone when its key is
not among the keys being visited. -/
theorem setWildcardSections_skip (seg2 : Option String) (v : Val)
    (k : String) (x : Val) :
    ∀ (ks : List String) (t : OMap), k ∉ ks →
      Ini.setWildcardSections ((k, x) :: t) ks seg2 v
        = (k, x) :: Ini.setWildcardSections t ks seg2 v
  | [], _, _ => rfl
  | name :: kt, t, h => by
    have hne : k ≠ name := fun hkk => h (by rw [hkk]; exact List.mem_cons_self _ _)
    have hnt : k ∉ kt := fun hkk => h (List.mem_cons_of_mem _ hkk)
    rw [Ini.setWildcardSections, Ini.setWildcardSections,
      omGet_cons_ne k name x t hne]
    cases hval : omGet t name with
    | none => exact setWildcardSections_skip seg2 v k x kt t hnt
    | some sv =>
      simp only [Option.getD_some]
      cases hsv : toOMap sv with
      | none =>
        simp only []
        exact setWildcardSections_skip seg2 v k x kt t hnt
      | some sm =>
        simp only []
        cases seg2 with
        | none =>
          simp only []
          rw [omSet_cons_ne k name x v t hne]
          exact setWildcardSections_skip none v k x kt (omSet t name v) hnt
        | some key2 =>
          simp only []
          by_cases hk2 : key2 = "*"
          · simp only [if_pos hk2]
            rw [omSet_cons_ne k name x
              (.omap (Ini.setAllKeys sm (omKeys sm) (Ini.toString v))) t hne]
            exact setWildcardSections_skip (some key2) v k x kt
              (omSet t name (.omap (Ini.setAllKeys sm (omKeys sm) (Ini.toString v)))) hnt
          · simp only [if_neg hk2]
            rw [omSet_cons_ne k name x
              (.omap (omSet sm key2 (.str (Ini.toString v)))) t hne]
            exact setWildcardSections_skip (some key2) v k x kt
              (omSet t name (.omap (omSet sm key2 (.str (Ini.toString v))))) hnt

/-- Characterization of the INI wildcard-section loop over the map's own
key list (unique keys): every map-valued section is rewritten (whole
section replaced by the raw value for one-segment selectors; key written
with the string coercion for two-segment selectors), and non-map sections
are skipped. -/
theorem setWildcardSections_keys (seg2 : Option String) (v : Val) :
    ∀ om : OMap, (omKeys om).Nodup →
      Ini.setWildcardSections om (omKeys om) seg2 v
        = om.map fun kv =>
            (kv.1,
              match toOMap kv.2 with
              | none => kv.2
              | some sm =>
                match seg2 with
                | none => v
                | some key2 =>
                  if key2 = "*" then
                    .omap (Ini.setAllKeys sm (omKeys sm) (Ini.toString v))
                  else
                    .omap (omSet sm key2 (.str (Ini.toString v))))
  | [], _ => rfl
  | (k, c) :: t, h => by
    rw [omKeys_cons] at h
    have hk : k ∉ omKeys t := (List.nodup_cons.mp h).1
    have ht : (omKeys t).Nodup := (List.nodup_cons.mp h).2
    rw [omKeys_cons, Ini.setWildcardSections, omGet_cons_self]
    simp only [Option.getD_some]
    cases hsv : toOMap c with
    | none =>
      simp only []
      rw [setWildcardSections_skip seg2 v k c (omKeys t) t hk,
        setWildcardSections_keys seg2 v t ht]
      simp [hsv]
    | some sm =>
      simp only []
      cases seg2 with
      | none =>
        simp only []
        rw [omSet_cons_self k c v t,
          setWildcardSections_skip none v k v (omKeys t) t hk,
          setWildcardSections_keys none v t ht]
        simp [hsv]
      | some key2 =>
        simp only []
        by_cases hk2 : key2 = "*"
        · simp only [if_pos hk2]
          rw [omSet_cons_self k c
              (.omap (Ini.setAllKeys sm (omKeys sm) (Ini.toString v))) t,
            setWildcardSections_skip (some key2) v k
              (.omap (Ini.setAllKeys sm (omKeys sm) (Ini.toString v))) (omKeys t) t hk,
            setWildcardSections_keys (some key2) v t ht]
          simp [hsv, hk2]
        · simp only [if_neg hk2]
          rw [omSet_cons_self k c
              (.omap (omSet sm key2 (.str (Ini.toString v)))) t,
            setWildcardSections_skip (some key2) v k
              (.omap (omSet sm key2 (.str (Ini.toString v)))) (omKeys t) t hk,
            setWildcardSections_keys (some key2) v t ht]
          simp [hsv, hk2]

/-- C8 (amended): for the INI handler, every value written through a
two-segment `SetPath` — literal or wildcard section, literal or wildcard
key — is stored as the string rendering `toString` of the value; a
one-segment (whole-section) write, literal or wildcard, stores the raw
value without coercion.  Stated over well-formed INI trees (unique keys,
sections skipped by the wildcard loop when not maps). -/
theorem ini_setPath_coercion (om : OMap) (v : Val)
    (hnd : (omKeys om).Nodup)
    (hsnd : ∀ p ∈ om, (toOMap p.2).elim True fun sm => (omKeys sm).Nodup) :
    (∀ s k, s ≠ "*" → k ≠ "*" →
      ∀ sv sm, omGet om s = some sv → toOMap sv = some sm →
        Ini.SetPath (.omap om) [s, k] v
          = (.omap (omSet om s (.omap (omSet sm k (.str (Ini.toString v))))), none)) ∧
    (∀ s, s ≠ "*" →
      ∀ sv sm, omGet om s = some sv → toOMap sv = some sm →
        Ini.SetPath (.omap om) [s, "*"] v
          = (.omap (omSet om s
              (.omap (sm.map fun e => (e.1, .str (Ini.toString v))))), none)) ∧
    (∀ k, k ≠ "*" →
      Ini.SetPath (.omap om) ["*", k] v
        = (.omap (om.map fun kv =>
            (kv.1,
              match toOMap kv.2 with
              | none => kv.2
              | some sm => .omap (omSet sm k (.str (Ini.toString v))))), none)) ∧
    (Ini.SetPath (.omap om) ["*", "*"] v
        = (.omap (om.map fun kv =>
            (kv.1,
              match toOMap kv.2 with
              | none => kv.2
              | some sm => .omap (sm.map fun e => (e.1, .str (Ini.toString v))))), none)) ∧
    (∀ s, s ≠ "*" →
      ∀ sv sm, omGet om s = some sv → toOMap sv = some sm →
        Ini.SetPath (.omap om) [s] v = (.omap (omSet om s v), none)) ∧
    (Ini.SetPath (.omap om) ["*"] v
        = (.omap (om.map fun kv =>
            (kv.1,
              match toOMap kv.2 with
              | none => kv.2
              | some _ => v)), none)) := by
  refine ⟨?_, ?_, ?_, ?_, ?_, ?_⟩
  · intro s k hs hk sv sm hg hsv
    simp only [Ini.SetPath, toOMap_omap]
    rw [if_neg hs, hg]
    simp only []
    rw [hsv]
    simp only []
    rw [if_neg hk]
  · intro s hs sv sm hg hsv
    have hmem := omGet_mem om s sv hg
    have hsmnd : (omKeys sm).Nodup := by
      have h2 := hsnd _ hmem
      rw [hsv] at h2
      exact h2
    simp only [Ini.SetPath, toOMap_omap]
    rw [if_neg hs, hg]
    simp only []
    rw [hsv]
    simp only [reduceIte]
    rw [setAllKeys_keys (Ini.toString v) sm hsmnd]
  · intro k hk
    simp only [Ini.SetPath, toOMap_omap, reduceIte]
    rw [setWildcardSections_keys (some k) v om hnd]
    simp only [Prod.mk.injEq, Val.omap.injEq]
    refine ⟨List.map_congr_left ?_, trivial⟩
    intro p _
    cases hp : toOMap p.2 with
    | none => simp
    | some sm => simp [hk]
  · simp only [Ini.SetPath, toOMap_omap, reduceIte]
    rw [setWildcardSections_keys (some "*") v om hnd]
    simp only [Prod.mk.injEq, Val.omap.injEq]
    refine ⟨List.map_congr_left ?_, trivial⟩
    intro p hmem
    cases hp : toOMap p.2 with
    | none => simp
    | some sm =>
      have hsmnd : (omKeys sm).Nodup := by
        have h2 := hsnd _ hmem
        rw [hp] at h2
        exact h2
      simp only []
      rw [setAllKeys_keys (Ini.toString v) sm hsmnd]
      simp
  · intro s hs sv sm hg hsv
    simp only [Ini.SetPath, toOMap_omap]
    rw [if_neg hs, hg]
    simp only []
    rw [hsv]
  · simp only [Ini.SetPath, toOMap_omap, reduceIte]
    rw [setWildcardSections_keys none v om hnd]

/-- Witness for the amended C8 at a concrete INI tree: a two-segment
literal write coerces the number 5 to the string `"5"`, a wildcard-key
write coerces it at every key, and a one-segment write stores the raw
number. -/
theorem ini_setPath_coercion_witness :
    Ini.SetPath (.omap [("s1", .omap [("a", .str "x"), ("b", .str "y")])])
        ["s1", "a"] (.num 5)
      = (.omap [("s1", .omap [("a", .str "5"), ("b", .str "y")])], none) ∧
    Ini.SetPath (.omap [("s1", .omap [("a", .str "x"), ("b", .str "y")])])
        ["s1", "*"] (.num 5)
      = (.omap [("s1", .omap [("a", .str "5"), ("b", .str "5")])], none) ∧
    Ini.SetPath (.omap [("s1", .omap [("a", .str "x"), ("b", .str "y")])])
        ["s1"] (.num 5)
      = (.omap [("s1", .num 5)], none) :=
  ⟨(ini_setPath_coercion [("s1", .omap [("a", .str "x"), ("b", .str "y")])]
      (.num 5) (by decide)
      (by
        intro p hp
        rw [List.mem_singleton] at hp
        subst hp
        exact (by decide : (omKeys [("a", Val.str "x"), ("b", Val.str "y")]).Nodup))).1
      "s1" "a" (by decide) (by decide) _ _ rfl rfl,
   (ini_setPath_coercion [("s1", .omap [("a", .str "x"), ("b", .str "y")])]
      (.num 5) (by decide)
      (by
        intro p hp
        rw [List.mem_singleton] at hp
        subst hp
        exact (by decide : (omKeys [("a", Val.str "x"), ("b", Val.str "y")]).Nodup))).2.1
      "s1" (by decide) _ _ rfl rfl,
   (ini_setPath_coercion [("s1", .omap [("a", .str "x"), ("b", .str "y")])]
      (.num 5) (by decide)
      (by
        intro p hp
        rw [List.mem_singleton] at hp
        subst hp
        exact (by decide : (omKeys [("a", Val.str "x"), ("b", Val.str "y")]).Nodup))).2.2.2.2.1
      "s1" (by decide) _ _ rfl rfl⟩

/-! ## Claim C5: plaintext block merge -/

namespace Ptext

theorem mergeLoop_length :
    ∀ (blocks curIgn : List Block) (idx : Nat),
      (mergeLoop blocks curIgn idx).length = blocks.length
  | [], _, _ => rfl
  | bb :: rest, curIgn, idx => by
    rw [mergeLoop]
    by_cases hm : bb.type = .managedB
    · rw [if_pos hm]
      simp [mergeLoop_length rest curIgn idx]
    · rw [if_neg hm]
      cases hg : curIgn.get? idx with
      | some cb => simp [mergeLoop_length rest curIgn (idx + 1)]
      | none => simp [mergeLoop_length rest curIgn idx]

/-- Index-based characterization of the `MergeBlocks` walk: the block at
position `i` keeps its type and marker line; a managed block keeps its
lines, and any other block takes the lines of current's ignored block at
position `idx` plus the number of non-managed blocks before position `i`,
falling back to its own lines when current has no block there. -/
theorem mergeLoop_get? (curIgn : List Block) :
    ∀ (blocks : List Block) (idx i : Nat) (b : Block),
      blocks.get? i = some b →
      (mergeLoop blocks curIgn idx).get? i
        = some (if b.type = .managedB then b
                else
                  { type := b.type, markerLine := b.markerLine,
                    lines :=
                      match curIgn.get?
                          (idx + ((blocks.take i).filter
                            (fun x => x.type ≠ BlockType.managedB)).length) with
                      | some cb => cb.lines
                      | none => b.lines })
  | [], _, i, b, h => by simp at h
  | bb :: rest, idx, 0, b, h => by
    obtain rfl : bb = b := by simpa using h
    rw [mergeLoop]
    by_cases hm : bb.type = .managedB
    · simp only [if_pos hm, List.get?_cons_zero]
    · rw [if_neg hm]
      cases hg : curIgn.get? idx with
      | some cb =>
        have hg' : curIgn[idx]? = some cb := by
          rw [← List.get?_eq_getElem?]; exact hg
        simp [hm, hg, hg']
      | none =>
        have hg' : curIgn[idx]? = none := by
          rw [← List.get?_eq_getElem?]; exact hg
        simp [hm, hg, hg']
  | bb :: rest, idx, i + 1, b, h => by
    have h' : rest.get? i = some b := by simpa using h
    rw [mergeLoop]
    by_cases hm : bb.type = .managedB
    · rw [if_pos hm]
      have ih := mergeLoop_get? curIgn rest idx i b h'
      simp only [List.get?_cons_succ]
      rw [ih]
      simp [List.take_succ_cons, List.filter_cons, hm]
    · rw [if_neg hm]
      cases hg : curIgn.get? idx with
      | some cb =>
        have ih := mergeLoop_get? curIgn rest (idx + 1) i b h'
        simp only [List.get?_cons_succ]
        rw [ih]
        have harith :
            idx + 1 + ((rest.take i).filter
                (fun x => x.type ≠ BlockType.managedB)).length
              = idx + ((bb :: rest.take i).filter
                (fun x => x.type ≠ BlockType.managedB)).length := by
          simp [List.filter_cons, hm]
          omega
        rw [List.take_succ_cons, ← harith]
      | none =>
        have ih := mergeLoop_get? curIgn rest idx i b h'
        simp only [List.get?_cons_succ]
        rw [ih]
        have hlen : curIgn.length ≤ idx := List.get?_eq_none.mp hg
        have h1 : curIgn.get?
            (idx + ((rest.take i).filter
              (fun x => x.type ≠ BlockType.managedB)).length) = none :=
          List.get?_eq_none.mpr (Nat.le_trans hlen (Nat.le_add_right _ _))
        have h2 : curIgn.get?
            (idx + (((bb :: rest).take (i + 1)).filter
              (fun x => x.type ≠ BlockType.managedB)).length) = none :=
          List.get?_eq_none.mpr (Nat.le_trans hlen (Nat.le_add_right _ _))
        rw [h1, h2]

end Ptext

/-- C5: plaintext `MergeBlocks` walks managed's block list in order and
returns the same block sequence (same types, same marker lines), where
managed blocks keep managed's content, the Nth ignored block of managed
takes the content of the Nth ignored block of current, and managed ignored
blocks beyond current's supply keep their own template content; current's
ignored blocks are one synthetic block holding all of current's content
when every block of current lacks a marker line, else exactly current's
explicitly ignored blocks in order.  Stated for managed configs without
the serialization-internal `BlockEnd` type. -/
theorem plaintext_mergeBlocks_spec (m : Ptext.ParsedConfig)
    (cur : Option Ptext.ParsedConfig)
    (hend : ∀ b ∈ m.blocks, b.type ≠ .endB) :
    Ptext.MergeBlocks (some m) cur
      = some { blocks := Ptext.mergeLoop m.blocks (Ptext.extractIgnoredBlocks cur) 0,
               commentPfx := m.commentPfx, trailingLines := [] } ∧
    (Ptext.mergeLoop m.blocks (Ptext.extractIgnoredBlocks cur) 0).length
      = m.blocks.length ∧
    (∀ (i : Nat) (b : Ptext.Block), m.blocks.get? i = some b →
      (Ptext.mergeLoop m.blocks (Ptext.extractIgnoredBlocks cur) 0).get? i
        = some (if b.type = .managedB then b
                else
                  { type := b.type, markerLine := b.markerLine,
                    lines :=
                      match (Ptext.extractIgnoredBlocks cur).get?
                          (((m.blocks.take i).filter
                            (fun x => x.type = Ptext.BlockType.ignoredB)).length) with
                      | some cb => cb.lines
                      | none => b.lines })) ∧
    (∀ c : Ptext.ParsedConfig, cur = some c → c.blocks ≠ [] →
      (Ptext.allBlocksImplicit c = true →
        Ptext.extractIgnoredBlocks cur
          = [{ type := .ignoredB, lines := c.blocks.flatMap Ptext.Block.lines,
               markerLine := "" }]) ∧
      (Ptext.allBlocksImplicit c = false →
        Ptext.extractIgnoredBlocks cur
          = c.blocks.filter fun b => b.type = Ptext.BlockType.ignoredB)) := by
  refine ⟨rfl, Ptext.mergeLoop_length m.blocks _ 0, ?_, ?_⟩
  · intro i b h
    have hfil : (m.blocks.take i).filter
          (fun x => x.type ≠ Ptext.BlockType.managedB)
        = (m.blocks.take i).filter
          (fun x => x.type = Ptext.BlockType.ignoredB) := by
      apply List.filter_congr
      intro x hx
      have hxm : x ∈ m.blocks := List.take_subset i m.blocks hx
      have hxe : x.type ≠ .endB := hend x hxm
      cases hxt : x.type <;> simp_all
    have := Ptext.mergeLoop_get? (Ptext.extractIgnoredBlocks cur) m.blocks 0 i b h
    rw [hfil] at this
    simpa using this
  · intro c hc hne
    subst hc
    have hne' : c.blocks.isEmpty = false := by
      simpa [List.isEmpty_iff] using hne
    constructor
    · intro himpl
      simp [Ptext.extractIgnoredBlocks, hne', himpl]
    · intro himpl
      simp [Ptext.extractIgnoredBlocks, hne', himpl]

/-- Witness for C5 at the spec's index-alignment scenario: managed has one
managed block and two ignored blocks with defaults; current supplies two
ignored blocks; the merge keeps managed content for the managed block and
takes current's ignored content position by position. -/
theorem plaintext_mergeBlocks_spec_witness :
    Ptext.MergeBlocks
        (some { blocks := [{ type := .managedB, lines := ["m1"],
                             markerLine := "# chezmoi:managed" },
                           { type := .ignoredB, lines := ["default1"],
                             markerLine := "# chezmoi:ignored" },
                           { type := .ignoredB, lines := ["default2"],
                             markerLine := "# chezmoi:ignored" }],
                commentPfx := "#", trailingLines := [] })
        (some { blocks := [{ type := .ignoredB, lines := ["user1"],
                             markerLine := "# chezmoi:ignored" },
                           { type := .ignoredB, lines := ["user2"],
                             markerLine := "# chezmoi:ignored" }],
                commentPfx := "#", trailingLines := [] })
      = some { blocks := [{ type := .managedB, lines := ["m1"],
                            markerLine := "# chezmoi:managed" },
                          { type := .ignoredB, lines := ["user1"],
                            markerLine := "# chezmoi:ignored" },
                          { type := .ignoredB, lines := ["user2"],
                            markerLine := "# chezmoi:ignored" }],
               commentPfx := "#", trailingLines := [] } :=
  (plaintext_mergeBlocks_spec
    { blocks := [{ type := .managedB, lines := ["m1"],
                   markerLine := "# chezmoi:managed" },
                 { type := .ignoredB, lines := ["default1"],
                   markerLine := "# chezmoi:ignored" },
                 { type := .ignoredB, lines := ["default2"],
                   markerLine := "# chezmoi:ignored" }],
      commentPfx := "#", trailingLines := [] }
    (some { blocks := [{ type := .ignoredB, lines := ["user1"],
                         markerLine := "# chezmoi:ignored" },
                       { type := .ignoredB, lines := ["user2"],
                         markerLine := "# chezmoi:ignored" }],
            commentPfx := "#", trailingLines := [] })
    (by decide)).1


/-! ## Claim C10: plaintext parse totality and line accounting -/

namespace Ptext

/-- The lines recorded in a scan state: closed blocks (marker line when
recorded, then content lines), then the open block, then the trailing
lines. -/
def stateAccounted (st : PState) : List String :=
  (st.blocks.flatMap fun b =>
      (if b.markerLine = "" then [] else [b.markerLine]) ++ b.lines) ++
    ((match st.current with
      | some b => (if b.markerLine = "" then [] else [b.markerLine]) ++ b.lines
      | none => []) ++ st.trailing)

theorem detectMarker_ne_empty (line m : String) (hm : m ≠ "")
    (h : detectMarker line = m) : line ≠ "" := by
  intro hline
  subst hline
  rw [show detectMarker "" = "" from rfl] at h
  exact hm h.symm

/-- One scan step accounts for exactly the lines accounted before plus the
incoming line, except that an end-marker line is dropped. -/
theorem parseStep_accounted (st : PState) (line : String) :
    (stateAccounted (parseStep st line)).Perm
      (stateAccounted st ++ if detectMarker line = "end" then [] else [line]) := by
  rw [List.perm_iff_count]
  intro a
  rw [parseStep]
  split
  · rename_i heq
    have hline : line ≠ "" := detectMarker_ne_empty line "managed" (by decide) heq
    cases hc : st.current <;>
      simp [stateAccounted, List.flatMap_append, heq, hline, hc,
        List.count_append, List.count_cons]
  · rename_i heq
    have hline : line ≠ "" := detectMarker_ne_empty line "ignored" (by decide) heq
    cases hc : st.current <;>
      simp [stateAccounted, List.flatMap_append, heq, hline, hc,
        List.count_append, List.count_cons]
  · rename_i heq
    cases hc : st.current <;>
      simp [stateAccounted, List.flatMap_append, heq, hc,
        List.count_append, List.count_cons]
  · rename_i h1 h2 h3
    have h3n : detectMarker line ≠ "end" := h3
    by_cases hae : st.afterEnd = true
    · simp only [if_pos hae]
      cases hc : st.current <;>
        simp [stateAccounted, hc, List.count_append, List.count_cons, h3n]
    · simp only [if_neg hae]
      cases hc : st.current <;>
        simp [stateAccounted, hc, List.count_append, List.count_cons, h3n]

/-- The whole scan accounts for exactly the non-end-marker input lines. -/
theorem foldl_accounted :
    ∀ (lines : List String) (st : PState),
      (stateAccounted (lines.foldl parseStep st)).Perm
        (stateAccounted st ++ lines.filter fun l => detectMarker l ≠ "end")
  | [], st => by simp
  | l :: t, st => by
    have ih := foldl_accounted t (parseStep st l)
    have hstep := (parseStep_accounted st l).append_right
      (t.filter fun l => detectMarker l ≠ "end")
    refine (ih.trans hstep).trans ?_
    by_cases hl : detectMarker l = "end" <;>
      simp [List.filter_cons, hl, List.append_assoc]

/-- Closing the scan state preserves the accounted lines. -/
theorem accounted_parseLines (pfx : String) (lines : List String) :
    accountedLines (parseLines pfx lines)
      = stateAccounted (lines.foldl parseStep
          { blocks := [], current := none, afterEnd := false, trailing := [] }) := by
  rw [parseLines, accountedLines]
  cases hc : (lines.foldl parseStep
      { blocks := [], current := none, afterEnd := false, trailing := [] }).current <;>
    simp [stateAccounted, hc, List.flatMap_append]

/-- The multiset of accounted lines is exactly the non-end-marker input
lines. -/
theorem parseLines_accounted (pfx : String) (lines : List String) :
    (accountedLines (parseLines pfx lines)).Perm
      (lines.filter fun l => detectMarker l ≠ "end") := by
  rw [accounted_parseLines]
  simpa using foldl_accounted lines
    { blocks := [], current := none, afterEnd := false, trailing := [] }

end Ptext

/-- C10: the claim fails on the code.  `Parse` is indeed total, but an
end-marker line is consumed without being recorded anywhere: on input
lines `["a", "# chezmoi:end", "b"]` the parse yields one implicit ignored
block `["a"]` and trailing lines `["b"]`, and the end-marker line appears
in no block's content lines, no block's marker line, and not in the
trailing-lines list. -/
theorem plaintext_parse_drops_end_marker_line :
    Ptext.parseLines "#" ["a", "# chezmoi:end", "b"]
      = { blocks := [{ type := .ignoredB, lines := ["a"], markerLine := "" }],
          commentPfx := "#", trailingLines := ["b"] } ∧
    Ptext.accountedLines (Ptext.parseLines "#" ["a", "# chezmoi:end", "b"])
      = ["a", "b"] ∧
    Ptext.detectMarker "# chezmoi:end" = "end" ∧
    "# chezmoi:end" ∉ ["a", "b"] :=
  ⟨rfl, rfl, rfl, by decide⟩

/-- C10 (amended): the plaintext `Parse` is total — it returns a
`ParsedConfig` and a nil error for every input — and every input line
that is not an end-marker line is accounted for in exactly one of: a
block's content lines, a block's marker line, or the trailing-lines list
(as a multiset, the accounted lines are exactly the non-end-marker input
lines); end-marker lines are consumed and not stored. -/
theorem plaintext_parse_total_and_accounts (pfx : String) :
    (∀ data : String,
      (Ptext.Parse pfx data).2 = none ∧
      (Ptext.Parse pfx data).1 = Ptext.parseLines pfx (data.splitOn "\n")) ∧
    (∀ lines : List String,
      (Ptext.accountedLines (Ptext.parseLines pfx lines)).Perm
        (lines.filter fun l => Ptext.detectMarker l ≠ "end")) :=
  ⟨fun _ => ⟨rfl, rfl⟩, fun lines => Ptext.parseLines_accounted pfx lines⟩


/-! ## Claim C9: path construction from the serialized array form

`path.ParseArrayPath` delegates to `encoding/json.Unmarshal` with a
`[]string` target.  The model below mirrors the documented behavior of
`Unmarshal` for that target: JSON whitespace; string literals with the
standard escapes, `\uXXXX` (with surrogate-pair combination and U+FFFD
replacement of unpaired surrogates, as in `encoding/json`'s unquote) and
rejection of raw control characters; the literal `null`, which Unmarshal
maps to the zero value without error (a nil slice at top level, `""` for a
string element); rejection of every non-string, non-null element and of
trailing data after the top-level value.  Recursion is fueled with one
unit per consumed character (string body) or element (array loop); every
call below supplies fuel strictly larger than what the input can consume,
so the out-of-fuel branch is unreachable. -/

namespace PathP

/-- JSON whitespace. -/
def isWs (c : Char) : Bool :=
  c = ' ' || c = '\t' || c = '\n' || c = '\r'

/-- Skip leading JSON whitespace. -/
def skipWs : List Char → List Char
  | [] => []
  | c :: t => if isWs c then skipWs t else c :: t

/-- The numeric value of a hexadecimal digit. -/
def hexVal (c : Char) : Option Nat :=
  if '0' ≤ c ∧ c ≤ '9' then some (c.toNat - '0'.toNat)
  else if 'a' ≤ c ∧ c ≤ 'f' then some (c.toNat - 'a'.toNat + 10)
  else if 'A' ≤ c ∧ c ≤ 'F' then some (c.toNat - 'A'.toNat + 10)
  else none

/-- U+FFFD, written for unpaired surrogate halves. -/
def replacementChar : Char := Char.ofNat 0xFFFD

/-- Parse the body of a JSON string literal (the opening quote already
consumed), returning the decoded characters and the remaining input. -/
def parseJStr : Nat → List Char → Except String (List Char × List Char)
  | 0, _ => .error "depth exceeded"
  | fuel + 1, s =>
    match s with
    | [] => .error "unexpected end of JSON input"
    | c :: rest =>
      if c = '"' then .ok ([], rest)
      else if c = '\\' then
        match rest with
        | [] => .error "unexpected end of JSON input"
        | e :: rest1 =>
          if e = 'u' then
            match rest1 with
            | a :: b :: c2 :: d :: rest2 =>
              match hexVal a, hexVal b, hexVal c2, hexVal d with
              | some ha, some hb, some hc, some hd =>
                let n := ((ha * 16 + hb) * 16 + hc) * 16 + hd
                if 0xD800 ≤ n ∧ n < 0xE000 then
                  match rest2 with
                  | '\\' :: 'u' :: a2 :: b2 :: c3 :: d2 :: rest3 =>
                    match hexVal a2, hexVal b2, hexVal c3, hexVal d2 with
                    | some ha2, some hb2, some hc2, some hd2 =>
                      let n2 := ((ha2 * 16 + hb2) * 16 + hc2) * 16 + hd2
                      if n < 0xDC00 ∧ 0xDC00 ≤ n2 then
                        (parseJStr fuel rest3).map fun p =>
                          (Char.ofNat (0x10000 + (n - 0xD800) * 0x400 + (n2 - 0xDC00)) :: p.1,
                            p.2)
                      else
                        (parseJStr fuel rest2).map fun p => (replacementChar :: p.1, p.2)
                    | _, _, _, _ =>
                      (parseJStr fuel rest2).map fun p => (replacementChar :: p.1, p.2)
                  | _ => (parseJStr fuel rest2).map fun p => (replacementChar :: p.1, p.2)
                else
                  (parseJStr fuel rest2).map fun p => (Char.ofNat n :: p.1, p.2)
              | _, _, _, _ => .error "invalid character in hexadecimal character escape"
            | _ => .error "unexpected end of JSON input"
          else if e = '"' then (parseJStr fuel rest1).map fun p => ('"' :: p.1, p.2)
          else if e = '\\' then (parseJStr fuel rest1).map fun p => ('\\' :: p.1, p.2)
          else if e = '/' then (parseJStr fuel rest1).map fun p => ('/' :: p.1, p.2)
          else if e = 'b' then (parseJStr fuel rest1).map fun p => (Char.ofNat 8 :: p.1, p.2)
          else if e = 'f' then (parseJStr fuel rest1).map fun p => (Char.ofNat 12 :: p.1, p.2)
          else if e = 'n' then (parseJStr fuel rest1).map fun p => ('\n' :: p.1, p.2)
          else if e = 'r' then (parseJStr fuel rest1).map fun p => ('\r' :: p.1, p.2)
          else if e = 't' then (parseJStr fuel rest1).map fun p => ('\t' :: p.1, p.2)
          else .error "invalid character in string escape code"
      else if c.toNat < 0x20 then .error "invalid control character within string literal"
      else (parseJStr fuel rest).map fun p => (c :: p.1, p.2)

/-- Parse one array element with a `string` target: a string literal, or
the literal `null`, which Unmarshal leaves as the zero value `""`;
anything else is an unmarshal type error. -/
def parseElem (s : List Char) : Except String (String × List Char) :=
  match s with
  | '"' :: rest => (parseJStr (rest.length + 1) rest).map fun p => (String.mk p.1, p.2)
  | 'n' :: 'u' :: 'l' :: 'l' :: rest => .ok ("", rest)
  | _ => .error "cannot unmarshal element into Go value of type string"

/-- The element loop of the array decoder: element, then `,` and another
element or `]`. -/
def elemLoop : Nat → List Char → Except String (List String × List Char)
  | 0, _ => .error "depth exceeded"
  | fuel + 1, s =>
    match parseElem s with
    | .error e => .error e
    | .ok (seg, rest) =>
      match skipWs rest with
      | ',' :: r2 => (elemLoop fuel (skipWs r2)).map fun p => (seg :: p.1, p.2)
      | ']' :: r2 => .ok ([seg], r2)
      | _ => .error "invalid character after array element"

/-- `json.Unmarshal` with a `[]string` target: the document is either
`null` (nil slice, no error) or an array of string/null elements, with
nothing but whitespace after it. -/
def unmarshalStringArray (s : List Char) : Except String (List String) :=
  match skipWs s with
  | 'n' :: 'u' :: 'l' :: 'l' :: rest =>
    match skipWs rest with
    | [] => .ok []
    | _ => .error "invalid character after top-level value"
  | '[' :: rest =>
    match skipWs rest with
    | ']' :: r2 =>
      match skipWs r2 with
      | [] => .ok []
      | _ => .error "invalid character after top-level value"
    | r =>
      match elemLoop (r.length + 1) r with
      | .error e => .error e
      | .ok (segs, rest2) =>
        match skipWs rest2 with
        | [] => .ok segs
        | _ => .error "invalid character after top-level value"
  | _ => .error "cannot unmarshal value into Go value of type []string"

/-- `path.ParseArrayPath`: unmarshal the JSON array string into the
selector's segments, wrapping any failure in a malformed-path error. -/
def ParseArrayPath (s : String) : Except String (List String) :=
  match unmarshalStringArray s.data with
  | .error e => .error ("invalid path array: " ++ e)
  | .ok segs => .ok segs

/-! Canonical serialization of a string array, used to state that every
serialized array of strings round-trips through `ParseArrayPath`. -/

/-- A lowercase hexadecimal digit. -/
def hexDigit (n : Nat) : Char :=
  if n < 10 then Char.ofNat ('0'.toNat + n) else Char.ofNat ('a'.toNat + (n - 10))

/-- JSON encoding of one character: quote and backslash are escaped,
control characters use `\u00XX`, everything else is emitted raw. -/
def encodeChar (c : Char) : List Char :=
  if c = '"' then ['\\', '"']
  else if c = '\\' then ['\\', '\\']
  else if c.toNat < 0x20 then
    ['\\', 'u', '0', '0', hexDigit (c.toNat / 16), hexDigit (c.toNat % 16)]
  else [c]

/-- JSON encoding of a string body. -/
def encodeBody (cs : List Char) : List Char :=
  cs.flatMap encodeChar

/-- JSON encoding of a string literal. -/
def encodeStr (s : String) : List Char :=
  '"' :: (encodeBody s.data ++ ['"'])

/-- JSON serialization of an array of strings. -/
def marshalStringArray : List String → String
  | [] => "[]"
  | s0 :: rest =>
    String.mk ('[' :: (encodeStr s0 ++ (rest.flatMap fun s => ',' :: encodeStr s) ++ [']']))

end PathP

end ChezmoiSplit
namespace ChezmoiSplit
namespace PathP

theorem hexVal_hexDigit : ∀ n : Nat, n < 16 → hexVal (hexDigit n) = some n := by decide

theorem parseJStr_encode :
    ∀ (cs suffix : List Char) (fuel : Nat), cs.length < fuel →
      parseJStr fuel (encodeBody cs ++ '"' :: suffix) = .ok (cs, suffix)
  | [], suffix, fuel, h => by
    obtain ⟨f, rfl⟩ : ∃ f, fuel = f + 1 := ⟨fuel - 1, by omega⟩
    simp [encodeBody, parseJStr]
  | c :: t, suffix, fuel, h => by
    obtain ⟨f, rfl⟩ : ∃ f, fuel = f + 1 := ⟨fuel - 1, by omega⟩
    have ht : t.length < f := by
      have := h; simp at this; omega
    have ih := parseJStr_encode t suffix f ht
    simp only [encodeBody, List.flatMap_cons] at ih ⊢
    by_cases hq : c = '"'
    · subst hq
      simp only [encodeChar, if_pos rfl]
      simp [parseJStr, ih, Except.map]
    · by_cases hb : c = '\\'
      · subst hb
        simp only [encodeChar]
        norm_num
        simp [parseJStr, ih, Except.map]
      · by_cases hctl : c.toNat < 0x20
        · simp only [encodeChar, if_neg hq, if_neg hb, if_pos hctl]
          have h1 : hexVal (hexDigit (c.toNat / 16)) = some (c.toNat / 16) :=
            hexVal_hexDigit _ (by omega)
          have h2 : hexVal (hexDigit (c.toNat % 16)) = some (c.toNat % 16) :=
            hexVal_hexDigit _ (Nat.mod_lt _ (by norm_num))
          have hn : (0 * 16 + 0) * 16 + c.toNat / 16 * 16 + c.toNat % 16 = c.toNat := by
            have := Nat.div_add_mod c.toNat 16
            omega
          have hns : ¬(55296 ≤ c.toNat ∧ c.toNat < 57344) := by omega
          have h0 : hexVal '0' = some 0 := rfl
          have hdm : c.toNat / 16 * 16 + c.toNat % 16 = c.toNat := by omega
          simp [parseJStr, List.cons_append, h0, h1, h2, hdm, hns, ih,
            Except.map, Char.ofNat_toNat]
        · simp only [encodeChar, if_neg hq, if_neg hb, if_neg hctl]
          simp [parseJStr, hq, hb, hctl, ih, Except.map]

end PathP
end ChezmoiSplit
namespace ChezmoiSplit
namespace PathP

theorem encodeBody_length : ∀ cs : List Char, cs.length ≤ (encodeBody cs).length
  | [] => Nat.le_refl _
  | c :: t => by
    have h1 : 1 ≤ (encodeChar c).length := by
      rw [encodeChar]; split_ifs <;> simp
    have h2 := encodeBody_length t
    simp only [encodeBody, List.flatMap_cons, List.length_append, List.length_cons]
    simp only [encodeBody] at h2
    omega

theorem parseElem_encode (s : String) (r : List Char) :
    parseElem (encodeStr s ++ r) = .ok (s, r) := by
  have hb := encodeBody_length s.data
  simp only [encodeStr, List.cons_append, List.append_assoc, List.singleton_append,
    List.nil_append]
  rw [parseElem]
  rw [parseJStr_encode s.data r _ (by simp only [List.length_append, List.length_cons]; omega)]
  simp [Except.map]

end PathP
end ChezmoiSplit
namespace ChezmoiSplit
namespace PathP

theorem elemLoop_encode :
    ∀ (rest : List String) (s0 : String) (suffix : List Char) (fuel : Nat),
      rest.length < fuel →
      elemLoop fuel
          (encodeStr s0 ++ ((rest.flatMap fun s => ',' :: encodeStr s) ++ ']' :: suffix))
        = .ok (s0 :: rest, suffix)
  | [], s0, suffix, fuel, h => by
    obtain ⟨f, rfl⟩ : ∃ f, fuel = f + 1 := ⟨fuel - 1, by omega⟩
    rw [elemLoop]
    rw [parseElem_encode s0 (([] : List String).flatMap (fun s => ',' :: encodeStr s) ++ ']' :: suffix)]
    simp [skipWs, isWs]
  | s1 :: t, s0, suffix, fuel, h => by
    obtain ⟨f, rfl⟩ : ∃ f, fuel = f + 1 := ⟨fuel - 1, by omega⟩
    have ih := elemLoop_encode t s1 suffix f (by simp at h; omega)
    rw [elemLoop]
    rw [parseElem_encode s0 (((s1 :: t).flatMap fun s => ',' :: encodeStr s) ++ ']' :: suffix)]
    simp only [List.flatMap_cons, List.cons_append, List.append_assoc]
    rw [show skipWs (',' :: (encodeStr s1 ++ ((t.flatMap fun s => ',' :: encodeStr s) ++ ']' :: suffix)))
        = ',' :: (encodeStr s1 ++ ((t.flatMap fun s => ',' :: encodeStr s) ++ ']' :: suffix)) from by
      simp [skipWs, isWs]]
    simp only []
    rw [show skipWs (encodeStr s1 ++ ((t.flatMap fun s => ',' :: encodeStr s) ++ ']' :: suffix))
        = encodeStr s1 ++ ((t.flatMap fun s => ',' :: encodeStr s) ++ ']' :: suffix) from by
      simp [encodeStr, skipWs, isWs]]
    rw [ih]
    simp [Except.map]

end PathP
end ChezmoiSplit
namespace ChezmoiSplit
namespace PathP

theorem flatMapComma_length :
    ∀ l : List String, l.length ≤ (l.flatMap fun s => ',' :: encodeStr s).length
  | [] => Nat.le_refl _
  | s :: t => by
    have := flatMapComma_length t
    simp only [List.flatMap_cons, List.length_append, List.length_cons]
    omega

theorem encodeStr_append (s : String) (X : List Char) :
    encodeStr s ++ X = '"' :: (encodeBody s.data ++ ('"' :: X)) := by
  simp [encodeStr]

theorem skipWs_cons_notWs (c : Char) (X : List Char) (h : isWs c = false) :
    skipWs (c :: X) = c :: X := by
  simp [skipWs, h]

theorem marshal_roundtrip : ∀ segs : List String,
    ParseArrayPath (marshalStringArray segs) = .ok segs
  | [] => rfl
  | s0 :: rest => by
    have hfl := flatMapComma_length rest
    have hlen : rest.length <
        ('"' :: (encodeBody s0.data ++ ('"' ::
          ((rest.flatMap fun s => ',' :: encodeStr s) ++ (']' :: ([] : List Char)))))).length + 1 := by
      simp only [List.length_cons, List.length_append]
      omega
    have ih := elemLoop_encode rest s0 [] _ hlen
    rw [encodeStr_append] at ih
    simp only [List.length_cons, List.length_append, List.length_flatMap, List.length_nil] at ih
    simp only [marshalStringArray, ParseArrayPath, unmarshalStringArray, List.append_assoc]
    rw [encodeStr_append s0 ((rest.flatMap fun s => ',' :: encodeStr s) ++ [']'])]
    rw [skipWs_cons_notWs '[' _ rfl]
    simp only []
    rw [skipWs_cons_notWs '"' _ rfl]
    simp [ih, skipWs]

end PathP
end ChezmoiSplit
namespace ChezmoiSplit

/-- C9: the claim fails on the code.  `Unmarshal` maps the JSON document
`null` onto a nil string slice without error, so `ParseArrayPath "null"`
succeeds with an empty selector even though `null` is not a JSON array of
strings; likewise a `null` array element is accepted as the empty-string
segment. -/
theorem parseArrayPath_null_accepted :
    PathP.ParseArrayPath "null" = .ok [] ∧
    PathP.ParseArrayPath "[\"a\", null]" = .ok ["a", ""] :=
  ⟨rfl, rfl⟩

/-- C9 (amended): `ParseArrayPath` succeeds with exactly the original
segments on every serialized JSON array of strings; it also accepts the
JSON document `null` (empty selector) and `null` array elements (empty
string segments), since Unmarshal maps JSON null onto the zero value
without error; other malformed inputs — a non-string element, a
non-array document, trailing data — fail with a malformed-path error. -/
theorem parseArrayPath_spec :
    (∀ segs : List String,
      PathP.ParseArrayPath (PathP.marshalStringArray segs) = .ok segs) ∧
    PathP.ParseArrayPath "null" = .ok [] ∧
    PathP.ParseArrayPath "[1]"
      = .error "invalid path array: cannot unmarshal element into Go value of type string" ∧
    PathP.ParseArrayPath "true"
      = .error "invalid path array: cannot unmarshal value into Go value of type []string" ∧
    PathP.ParseArrayPath "[\"a\"] x"
      = .error "invalid path array: invalid character after top-level value" :=
  ⟨PathP.marshal_roundtrip, rfl, rfl, rfl, rfl⟩

end ChezmoiSplit
